import Mathlib

/-!
Verification development for the NVDA news-sentiment pipeline
(`NLPproject.ipynb`).

Modelling conventions:
* Text is modelled as `List ℕ` of ASCII code points (the pipeline's
  inputs are English headlines; Python string operations are modelled on
  the ASCII fragment).  `pyLower` models `str.lower`, `isWs` models the
  whitespace class used by `str.split()` / `\s`, `isWordChar` models the
  regex class `\w`.
* Python floats are modelled by exact rationals `ℚ`; the numeric claims
  of the specification are stated at the level of real arithmetic, not
  IEEE rounding.
* `pandas` column operations are modelled as list transformations:
  `shift(1)` prepends an undefined entry (`Option`), `shift(-1)`
  compares with the successor (a comparison against the missing last
  successor is `False`, hence `0` after `astype(int)`), `merge(...,
  how='inner')` is the order-preserving inner join, `groupby(...).mean()`
  is mean-per-sorted-unique-key, `rolling(window=7).mean()` is the
  trailing-window mean, `dropna` removes rows with an undefined field.
* The Loughran–McDonald lexicon and the NLTK stop-word list are external
  data files loaded at run time; they appear as parameters
  (`lm_positive`, `lm_negative`, `stop_words`).
-/

/-- ASCII model of Python `str.lower` on one code point: an upper-case
letter `A`–`Z` (65–90) is shifted to its lower-case counterpart, every
other code point is unchanged. -/
def pyLower (c : ℕ) : ℕ :=
  if 65 ≤ c ∧ c ≤ 90 then c + 32 else c

/-- ASCII whitespace, as recognised by Python `str.split()` and the
regex class `\s`: space, tab, newline, vertical tab, form feed,
carriage return. -/
def isWs (c : ℕ) : Bool :=
  c = 32 || c = 9 || c = 10 || c = 11 || c = 12 || c = 13

/-- ASCII model of the regex class `\w` used in `re.sub(r'[^\w\s]', '',
text)`: letters, digits, and the underscore (code point 95). -/
def isWordChar (c : ℕ) : Bool :=
  (65 ≤ c && c ≤ 90) || (97 ≤ c && c ≤ 122) || (48 ≤ c && c ≤ 57) || c = 95

/-- Whitespace splitting in the style of Python `str.split()` (no
arguments): maximal runs of non-whitespace characters become tokens,
runs of whitespace separate them, and no empty tokens are produced. -/
def splitWs : List ℕ → List (List ℕ)
  | [] => []
  | [c] => if isWs c then [] else [[c]]
  | c :: d :: rest =>
    if isWs c then splitWs (d :: rest)
    else if isWs d then [c] :: splitWs (d :: rest)
    else
      match splitWs (d :: rest) with
      | [] => [[c]]
      | t :: ts => (c :: t) :: ts

/-- Model of `" ".join(tokens)`: tokens joined by single spaces. -/
def joinSpace : List (List ℕ) → List ℕ
  | [] => []
  | [w] => w
  | w :: ws => w ++ 32 :: joinSpace ws

/-- One step of the counting loop in `financial_sentiment_adjustment`:
`if word in lm_positive: pos += 1 elif word in lm_negative: neg += 1`.
Membership is checked positive-first. -/
def lm_step (lm_positive lm_negative : List (List ℕ)) (pn : ℕ × ℕ)
    (word : List ℕ) : ℕ × ℕ :=
  if word ∈ lm_positive then (pn.1 + 1, pn.2)
  else if word ∈ lm_negative then (pn.1, pn.2 + 1)
  else pn

/-- Embedding of `financial_sentiment_adjustment(text, sentiment_score)`
(source lines 69–78): `words = text.lower().split()`, count positive and
negative lexicon hits positive-first, add `(pos - neg) * 0.1` to the
base score, and clamp via `max(-1, min(1, adjusted))`. -/
def financial_sentiment_adjustment (lm_positive lm_negative : List (List ℕ))
    (text : List ℕ) (sentiment_score : ℚ) : ℚ :=
  let words := splitWs (text.map pyLower)
  let scores := words.foldl (lm_step lm_positive lm_negative) (0, 0)
  max (-1) (min 1 (sentiment_score + ((scores.1 : ℚ) - (scores.2 : ℚ)) * (1/10)))

/-- Number of tokens that are positive lexicon hits (`pos_count` of the
specification). -/
def pos_count (lm_positive : List (List ℕ)) (words : List (List ℕ)) : ℕ :=
  words.countP (fun w => decide (w ∈ lm_positive))

/-- Number of tokens that are negative lexicon hits under positive-first
membership (`neg_count` of the specification): a token also present in
the positive set does not count. -/
def neg_count (lm_positive lm_negative : List (List ℕ))
    (words : List (List ℕ)) : ℕ :=
  words.countP (fun w => decide (w ∉ lm_positive ∧ w ∈ lm_negative))

/-- Clamping to the closed interval `[-1, 1]`, as the specification
words it. -/
def spec_clamp (x : ℚ) : ℚ :=
  if x < -1 then -1 else if 1 < x then 1 else x

/-- The adjustment formula exactly as the claim words it: the text is
split on whitespace with NO further normalization (no lower-casing),
tokens are checked positive-first, and the adjusted score is clamped. -/
def spec_adjustment_nonorm (lm_positive lm_negative : List (List ℕ))
    (text : List ℕ) (base_score : ℚ) : ℚ :=
  let words := splitWs text
  spec_clamp (base_score +
    ((pos_count lm_positive words : ℚ) -
     (neg_count lm_positive lm_negative words : ℚ)) * (1/10))

/-- The adjustment formula with the lower-casing the source actually
performs: tokens come from the lower-cased text. -/
def spec_adjustment_lowercased (lm_positive lm_negative : List (List ℕ))
    (text : List ℕ) (base_score : ℚ) : ℚ :=
  let words := splitWs (text.map pyLower)
  spec_clamp (base_score +
    ((pos_count lm_positive words : ℚ) -
     (neg_count lm_positive lm_negative words : ℚ)) * (1/10))

lemma foldl_lm_step (lm_positive lm_negative : List (List ℕ)) :
    ∀ (ws : List (List ℕ)) (a b : ℕ),
      ws.foldl (lm_step lm_positive lm_negative) (a, b) =
        (a + pos_count lm_positive ws,
         b + neg_count lm_positive lm_negative ws) := by
  intro ws
  induction ws with
  | nil => intro a b; simp [pos_count, neg_count]
  | cons w ws ih =>
    intro a b
    by_cases hp : w ∈ lm_positive
    · simp [lm_step, hp, ih, pos_count, neg_count, List.countP_cons]
      omega
    · by_cases hn : w ∈ lm_negative
      · simp [lm_step, hp, hn, ih, pos_count, neg_count, List.countP_cons]
        omega
      · simp [lm_step, hp, hn, ih, pos_count, neg_count, List.countP_cons]

lemma max_min_eq_spec_clamp (x : ℚ) :
    max (-1) (min 1 x) = spec_clamp x := by
  simp only [spec_clamp, max_def, min_def]
  split_ifs <;> linarith

lemma financial_sentiment_adjustment_eq (lm_positive lm_negative : List (List ℕ))
    (text : List ℕ) (s : ℚ) :
    financial_sentiment_adjustment lm_positive lm_negative text s =
      spec_clamp (s +
        ((pos_count lm_positive (splitWs (text.map pyLower)) : ℚ) -
         (neg_count lm_positive lm_negative (splitWs (text.map pyLower)) : ℚ))
          * (1/10)) := by
  unfold financial_sentiment_adjustment
  simp only [foldl_lm_step, Nat.zero_add]
  exact max_min_eq_spec_clamp _

lemma spec_clamp_mem (x : ℚ) : -1 ≤ spec_clamp x ∧ spec_clamp x ≤ 1 := by
  unfold spec_clamp
  split_ifs <;> constructor <;> linarith

lemma pyLower_idem (c : ℕ) : pyLower (pyLower c) = pyLower c := by
  unfold pyLower
  split_ifs <;> omega

/-- C1 (counterexample): at the lexicon `{positive = {"profit"},
negative = {}}`, the upper-case text `"PROFIT"` and base score `0`, the
code returns `0.1` (it lower-cases the text before matching) while the
claimed formula — tokens taken from the text with no further
normalization — returns `0`. -/
theorem C1_counterexample :
    financial_sentiment_adjustment [[112, 114, 111, 102, 105, 116]] []
        [80, 82, 79, 70, 73, 84] 0 ≠
      spec_adjustment_nonorm [[112, 114, 111, 102, 105, 116]] []
        [80, 82, 79, 70, 73, 84] 0 := by
  simp only [financial_sentiment_adjustment, spec_adjustment_nonorm, splitWs,
    pyLower, isWs, lm_step, pos_count, neg_count, spec_clamp, List.map,
    List.foldl, List.countP, List.countP.go]
  norm_num

/-- C1 (amended): the Financial Sentiment Adjuster returns
`clamp(base + (pos - neg) * 0.1)` where the counts are obtained by
splitting the LOWER-CASED text on whitespace and checking each token
against the positive set first; with base `0` and a text scoring 2
positive and 0 negative hits the result is `0.2`, and a text with no
lexicon hits returns a base score in `[-1, 1]` unchanged. -/
theorem C1_adjustment_formula :
    (∀ P N text s, financial_sentiment_adjustment P N text s =
        spec_adjustment_lowercased P N text s)
  ∧ (∀ P N text, pos_count P (splitWs (text.map pyLower)) = 2 →
        neg_count P N (splitWs (text.map pyLower)) = 0 →
        financial_sentiment_adjustment P N text 0 = 1/5)
  ∧ (∀ P N text s, pos_count P (splitWs (text.map pyLower)) = 0 →
        neg_count P N (splitWs (text.map pyLower)) = 0 →
        -1 ≤ s → s ≤ 1 → financial_sentiment_adjustment P N text s = s) := by
  refine ⟨fun P N text s => ?_, fun P N text hp hn => ?_, fun P N text s hp hn h1 h2 => ?_⟩
  · rw [financial_sentiment_adjustment_eq]
    rfl
  · rw [financial_sentiment_adjustment_eq, hp, hn]
    norm_num [spec_clamp]
  · rw [financial_sentiment_adjustment_eq, hp, hn]
    simp only [spec_clamp]
    split_ifs <;> push_cast <;> linarith

/-- C1 (witness): concrete instances — the text `"gain up"` with both
words positive gives `0.2` from base `0`, and a text with no hits
returns the base `0.5` unchanged. -/
theorem C1_witness :
    financial_sentiment_adjustment [[103, 97, 105, 110], [117, 112]] []
        [103, 97, 105, 110, 32, 117, 112] 0 = 1/5
  ∧ financial_sentiment_adjustment [] [] [104, 105] (1/2) = 1/2 :=
  ⟨C1_adjustment_formula.2.1 _ _ _ (by decide) (by decide),
   C1_adjustment_formula.2.2 _ _ _ _ (by decide) (by decide)
     (by norm_num) (by norm_num)⟩

/-- C2: for any lexicon, any text and any base score in `[-1, 1]` the
Financial Sentiment Adjuster's output lies in `[-1, 1]`, and with base
`0.9` and a text scoring 0 positive and 3 negative hits the result is
`max(-1, 0.9 - 0.3) = 0.6`. -/
theorem C2_output_clamped :
    (∀ P N text s, -1 ≤ s → s ≤ 1 →
        -1 ≤ financial_sentiment_adjustment P N text s ∧
          financial_sentiment_adjustment P N text s ≤ 1)
  ∧ (∀ P N text, pos_count P (splitWs (text.map pyLower)) = 0 →
        neg_count P N (splitWs (text.map pyLower)) = 3 →
        financial_sentiment_adjustment P N text (9/10) = 3/5) := by
  refine ⟨fun P N text s _ _ => ?_, fun P N text hp hn => ?_⟩
  · rw [financial_sentiment_adjustment_eq]
    exact spec_clamp_mem _
  · rw [financial_sentiment_adjustment_eq, hp, hn]
    norm_num [spec_clamp]

/-- C2 (witness): concrete instances — base `0` with the empty text
stays in `[-1, 1]`, and the text `"a a a"` against a lexicon whose
negative set is `{"a"}` takes base `0.9` to `0.6`. -/
theorem C2_witness :
    (-1 ≤ financial_sentiment_adjustment [] [] [] 0 ∧
      financial_sentiment_adjustment [] [] [] 0 ≤ 1)
  ∧ financial_sentiment_adjustment [] [[97]] [97, 32, 97, 32, 97] (9/10) = 3/5 :=
  ⟨C2_output_clamped.1 [] [] [] 0 (by norm_num) (by norm_num),
   C2_output_clamped.2 [] [[97]] [97, 32, 97, 32, 97] (by decide) (by decide)⟩

/-- C10: the Financial Sentiment Adjuster is case-insensitive in its
text argument — lower-casing the text before the call does not change
the result, because the function lower-cases the text itself before
splitting and matching. -/
theorem C10_case_insensitive :
    ∀ P N text s, financial_sentiment_adjustment P N text s =
      financial_sentiment_adjustment P N (text.map pyLower) s := by
  intro P N text s
  simp only [financial_sentiment_adjustment, List.map_map, Function.comp_def,
    pyLower_idem]

/-- A news article row after sentiment scoring: the calendar date
(`publishedAt`, modelled as a natural number of days) and the adjusted
sentiment. -/
structure NewsRow where
  published_at : ℕ
  adjusted_sentiment : ℚ
deriving DecidableEq

/-- A daily price row from the stock source: date and closing price. -/
structure PriceRow where
  date : ℕ
  close : ℚ
deriving DecidableEq

/-- A row of the merged dataset. -/
structure MergedRow where
  published_at : ℕ
  adjusted_sentiment : ℚ
  close : ℚ
deriving DecidableEq

/-- Embedding of `pd.merge(news_df, stock_data, left_on='publishedAt',
right_on='Date', how='inner')` (source line 93): an inner join that
keeps, for each news row in left order, one output row per price row
with the same date.  Note the left operand is the per-article `news_df`,
not the per-date aggregate `daily_adjusted_sentiment`. -/
def merged_data (news : List NewsRow) (stock : List PriceRow) : List MergedRow :=
  news.flatMap fun n =>
    (stock.filter fun p => p.date == n.published_at).map fun p =>
      { published_at := n.published_at
        adjusted_sentiment := n.adjusted_sentiment
        close := p.close }

/-- Helper for `shift1`: lagged values once a previous value exists. -/
def lagAux (prev : ℚ) : List ℚ → List (Option ℚ)
  | [] => []
  | y :: r => some prev :: lagAux y r

/-- Embedding of the pandas column shift `col.shift(1)` (source lines 97
and 143): entry `t` holds the value at `t - 1`, the first entry is
undefined. -/
def shift1 : List ℚ → List (Option ℚ)
  | [] => []
  | x :: r => none :: lagAux x r

/-- The merged rows paired with the `lagged_sentiment` column computed
by `merged_data['adjusted_sentiment'].shift(1)` (source line 97), in the
dataframe's existing row order. -/
def with_lagged_sentiment (rows : List MergedRow) : List (MergedRow × Option ℚ) :=
  rows.zip (shift1 (rows.map MergedRow.adjusted_sentiment))

/-- Ascending sort of the merged rows by date, as the claim describes
(the source never performs this sort). -/
def sort_by_date (rows : List MergedRow) : List MergedRow :=
  rows.insertionSort fun a b => a.published_at ≤ b.published_at

/-- The feature step as the source performs it: lag computed on the
merge output order. -/
def code_lagged_features (news : List NewsRow) (stock : List PriceRow) :
    List (MergedRow × Option ℚ) :=
  with_lagged_sentiment (merged_data news stock)

/-- The feature step as the claim describes it: the merged dataset is
first sorted by date ascending, then the lag is computed. -/
def spec_sorted_features (news : List NewsRow) (stock : List PriceRow) :
    List (MergedRow × Option ℚ) :=
  with_lagged_sentiment (sort_by_date (merged_data news stock))

lemma lagAux_getElem? (r : List ℚ) :
    ∀ (x : ℚ) (t : ℕ), t < r.length →
      (lagAux x r)[t]? = some ((x :: r)[t]?) := by
  induction r with
  | nil => intro x t ht; simp at ht
  | cons y r ih =>
    intro x t ht
    cases t with
    | zero => simp [lagAux]
    | succ t =>
      simp only [lagAux, List.getElem?_cons_succ]
      exact ih y t (by simpa using ht)

lemma shift1_getElem?_succ (xs : List ℚ) (t : ℕ) (h : t + 1 < xs.length) :
    (shift1 xs)[t + 1]? = some (xs[t]?) := by
  cases xs with
  | nil => simp at h
  | cons x r =>
    simp only [shift1, List.getElem?_cons_succ]
    have ht : t < r.length := by simpa using h
    rw [lagAux_getElem? r x t ht]

lemma shift1_getElem?_zero (xs : List ℚ) (h : xs ≠ []) :
    (shift1 xs)[0]? = some none := by
  cases xs with
  | nil => exact absurd rfl h
  | cons x r => simp [shift1]

/-- C3 (counterexample): with the news rows in date-descending order
(date 2 then date 1) and prices for both dates, the code's feature step
(lag in merge order) differs from the claimed one (sort by date
ascending, then lag): the code pairs the date-1 row with the date-2
sentiment as its lag. -/
theorem C3_counterexample :
    code_lagged_features [⟨2, 1/2⟩, ⟨1, 0⟩] [⟨1, 10⟩, ⟨2, 20⟩] ≠
      spec_sorted_features [⟨2, 1/2⟩, ⟨1, 0⟩] [⟨1, 10⟩, ⟨2, 20⟩] := by
  intro h
  have h2 := congrArg (List.map fun p => p.1.published_at) h
  simp [code_lagged_features, spec_sorted_features, with_lagged_sentiment,
    merged_data, sort_by_date, List.insertionSort, List.orderedInsert,
    shift1, lagAux] at h2

/-- C3 (amended): the Feature Builder does not sort the merged dataset;
`lagged_sentiment` is computed in the merge output's existing row order
(which preserves the news-article order), so for every row `t > 0` of
that row order, `lagged_sentiment[t] = adjusted_sentiment[t-1]`, and the
first row's lag is undefined. -/
theorem C3_lagged_sentiment :
    (∀ news stock t, t + 1 < (merged_data news stock).length →
      (shift1 ((merged_data news stock).map MergedRow.adjusted_sentiment))[t + 1]? =
        some (((merged_data news stock).map MergedRow.adjusted_sentiment)[t]?))
  ∧ (∀ news stock, merged_data news stock ≠ [] →
      (shift1 ((merged_data news stock).map MergedRow.adjusted_sentiment))[0]? =
        some none) := by
  constructor
  · intro news stock t ht
    exact shift1_getElem?_succ _ t (by simpa using ht)
  · intro news stock h
    exact shift1_getElem?_zero _ (by simpa using h)

/-- C3 (witness): on a concrete two-row merged dataset the lag column is
the previous row's sentiment, and the first row's lag is undefined. -/
theorem C3_witness :
    (shift1 ((merged_data [⟨1, 1/2⟩, ⟨2, 1/4⟩] [⟨1, 5⟩, ⟨2, 6⟩]).map
        MergedRow.adjusted_sentiment))[1]? =
      some (((merged_data [⟨1, 1/2⟩, ⟨2, 1/4⟩] [⟨1, 5⟩, ⟨2, 6⟩]).map
        MergedRow.adjusted_sentiment)[0]?)
  ∧ (shift1 ((merged_data [⟨1, 1/2⟩, ⟨2, 1/4⟩] [⟨1, 5⟩, ⟨2, 6⟩]).map
        MergedRow.adjusted_sentiment))[0]? = some none :=
  ⟨C3_lagged_sentiment.1 [⟨1, 1/2⟩, ⟨2, 1/4⟩] [⟨1, 5⟩, ⟨2, 6⟩] 0 (by decide),
   C3_lagged_sentiment.2 [⟨1, 1/2⟩, ⟨2, 1/4⟩] [⟨1, 5⟩, ⟨2, 6⟩] (by decide)⟩

/-- C4 (counterexample): two articles published on the same date (with
adjusted sentiments 0.2 and 0.4) and one price row for that date
produce TWO merged rows for that calendar date, because the join's left
operand is the per-article `news_df`, not the per-date aggregate; so a
date does not occur in at most one merged row (and neither row carries
the date's mean sentiment 0.3). -/
theorem C4_counterexample :
    ¬ ((merged_data [⟨1, 1/5⟩, ⟨1, 2/5⟩] [⟨1, 10⟩]).countP
        (fun r => r.published_at == 1) ≤ 1) := by
  decide

/-- C4 (amended): the merged dataset is the inner join on date of the
PER-ARTICLE news rows with the daily price rows: a row appears in the
output exactly when some news row and some price row share its date (so
rows present in only one source never appear, and every merged record's
date is present in both sources), each output row carrying that
article's own adjusted sentiment and that date's close; a date with
several articles therefore occurs in several merged rows, not one. -/
theorem C4_inner_join :
    (∀ news stock r, r ∈ merged_data news stock →
        (∃ n ∈ news, n.published_at = r.published_at) ∧
        (∃ p ∈ stock, p.date = r.published_at))
  ∧ (∀ news stock (r : MergedRow), r ∈ merged_data news stock ↔
        ∃ n ∈ news, ∃ p ∈ stock, p.date = n.published_at ∧
          r = ⟨n.published_at, n.adjusted_sentiment, p.close⟩) := by
  have hmem : ∀ news stock (r : MergedRow), r ∈ merged_data news stock ↔
      ∃ n ∈ news, ∃ p ∈ stock, p.date = n.published_at ∧
        r = ⟨n.published_at, n.adjusted_sentiment, p.close⟩ := by
    intro news stock r
    simp only [merged_data, List.mem_flatMap, List.mem_map, List.mem_filter,
      beq_iff_eq]
    constructor
    · rintro ⟨n, hn, p, ⟨hp, hpd⟩, hr⟩
      exact ⟨n, hn, p, hp, hpd, hr.symm⟩
    · rintro ⟨n, hn, p, hp, hpd, hr⟩
      exact ⟨n, hn, p, ⟨hp, hpd⟩, hr.symm⟩
  refine ⟨fun news stock r hr => ?_, hmem⟩
  rcases (hmem news stock r).1 hr with ⟨n, hn, p, hp, hpd, hr⟩
  subst hr
  exact ⟨⟨n, hn, rfl⟩, ⟨p, hp, hpd⟩⟩

/-- C4 (witness): the single merged row of a one-article, one-price
instance has its date present in both sources. -/
theorem C4_witness :
    (∃ n ∈ [(⟨1, 1/5⟩ : NewsRow)], n.published_at = 1) ∧
    (∃ p ∈ [(⟨1, 10⟩ : PriceRow)], p.date = 1) :=
  C4_inner_join.1 [⟨1, 1/5⟩] [⟨1, 10⟩] ⟨1, 1/5, 10⟩
    (by simp [merged_data])

/-- Embedding of `merged_data['Close'].rolling(window=w).mean()` (source
line 98 uses `w = 7`): entry `t` is the arithmetic mean of the trailing
`w` observations ending at `t`, and is undefined while fewer than `w`
observations are available. -/
def rolling_mean (w : ℕ) (xs : List ℚ) : List (Option ℚ) :=
  (List.range xs.length).map fun t =>
    if w ≤ t + 1 then some (((xs.drop (t + 1 - w)).take w).sum / (w : ℚ))
    else none

/-- C7: `rolling_mean_7[t]` is undefined for `t < 6` and equals the mean
of the trailing 7 closes for `t ≥ 6`; on closes `[1..8]` the value at
index 6 is `4` and at index 7 is `5`. -/
theorem C7_rolling_mean_7 :
    (∀ (xs : List ℚ) (t : ℕ), t < 6 → t < xs.length →
        (rolling_mean 7 xs)[t]? = some none)
  ∧ (∀ (xs : List ℚ) (t : ℕ), 6 ≤ t → t < xs.length →
        (rolling_mean 7 xs)[t]? =
          some (some (((xs.drop (t - 6)).take 7).sum / 7)))
  ∧ rolling_mean 7 [1, 2, 3, 4, 5, 6, 7, 8] =
      [none, none, none, none, none, none, some 4, some 5] := by
  refine ⟨fun xs t h6 hl => ?_, fun xs t h6 hl => ?_, ?_⟩
  · simp [rolling_mean, List.getElem?_map, List.getElem?_range hl]
    omega
  · simp [rolling_mean, List.getElem?_map, List.getElem?_range hl]
    omega
  · simp only [rolling_mean]
    norm_num [List.range_succ]

/-- C7 (witness): concrete instances of the two general clauses on the
closes `[1..8]`: index 2 is undefined, index 6 is the mean of `[1..7]`. -/
theorem C7_witness :
    (rolling_mean 7 [1, 2, 3, 4, 5, 6, 7, 8])[2]? = some none
  ∧ (rolling_mean 7 [1, 2, 3, 4, 5, 6, 7, 8])[6]? =
      some (some ((([(1:ℚ), 2, 3, 4, 5, 6, 7, 8].drop 0).take 7).sum / 7)) :=
  ⟨C7_rolling_mean_7.1 [1, 2, 3, 4, 5, 6, 7, 8] 2 (by norm_num) (by norm_num),
   C7_rolling_mean_7.2.1 [1, 2, 3, 4, 5, 6, 7, 8] 6 (by norm_num) (by norm_num)⟩

/-- Arithmetic mean of the adjusted sentiments of the articles published
on date `d`. -/
def date_mean (news : List NewsRow) (d : ℕ) : ℚ :=
  (((news.filter fun n => n.published_at == d).map
      NewsRow.adjusted_sentiment).sum) /
    ((news.filter fun n => n.published_at == d).length : ℚ)

/-- Embedding of
`news_df.groupby('publishedAt')['adjusted_sentiment'].mean().reset_index()`
(source line 84): one output row per distinct date of the article set,
dates in ascending order, each carrying the mean adjusted sentiment of
that date's articles. -/
def daily_adjusted_sentiment (news : List NewsRow) : List (ℕ × ℚ) :=
  (((news.map NewsRow.published_at).dedup).insertionSort (· ≤ ·)).map
    fun d => (d, date_mean news d)

/-- C8: the Temporal Aggregator produces one row per calendar date
present in the article set (dates sorted ascending, no duplicates, no
zero-fill for absent dates), whose value is the mean adjusted sentiment
of that date's articles; three same-date articles with sentiments
`[0.2, -0.4, 0.6]` aggregate to `2/15 = 0.1333…`. -/
theorem C8_daily_mean :
    (∀ news, ((daily_adjusted_sentiment news).map Prod.fst).Sorted (· ≤ ·))
  ∧ (∀ news, ((daily_adjusted_sentiment news).map Prod.fst).Nodup)
  ∧ (∀ news d, d ∈ (daily_adjusted_sentiment news).map Prod.fst ↔
      ∃ n ∈ news, n.published_at = d)
  ∧ (∀ news p, p ∈ daily_adjusted_sentiment news → p.2 = date_mean news p.1)
  ∧ daily_adjusted_sentiment [⟨5, 1/5⟩, ⟨5, -2/5⟩, ⟨5, 3/5⟩] = [(5, 2/15)] := by
  refine ⟨fun news => ?_, fun news => ?_, fun news d => ?_, fun news p hp => ?_, ?_⟩
  · have h : (daily_adjusted_sentiment news).map Prod.fst =
        ((news.map NewsRow.published_at).dedup).insertionSort (· ≤ ·) := by
      simp [daily_adjusted_sentiment, List.map_map, Function.comp_def]
    rw [h]
    exact List.sorted_insertionSort _ _
  · have h : (daily_adjusted_sentiment news).map Prod.fst =
        ((news.map NewsRow.published_at).dedup).insertionSort (· ≤ ·) := by
      simp [daily_adjusted_sentiment, List.map_map, Function.comp_def]
    rw [h]
    exact ((List.perm_insertionSort _ _).symm).nodup
      (List.nodup_dedup _)
  · have h : (daily_adjusted_sentiment news).map Prod.fst =
        ((news.map NewsRow.published_at).dedup).insertionSort (· ≤ ·) := by
      simp [daily_adjusted_sentiment, List.map_map, Function.comp_def]
    rw [h]
    rw [(List.perm_insertionSort (· ≤ ·) _).mem_iff, List.mem_dedup,
      List.mem_map]
  · rcases List.mem_map.1 hp with ⟨d, _, rfl⟩
    rfl
  · have hk : ((([⟨5, 1/5⟩, ⟨5, -2/5⟩, ⟨5, 3/5⟩] : List NewsRow).map
        NewsRow.published_at).dedup).insertionSort (· ≤ ·) = [5] := by decide
    unfold daily_adjusted_sentiment
    rw [hk]
    simp only [List.map]
    have hm : date_mean [⟨5, 1/5⟩, ⟨5, -2/5⟩, ⟨5, 3/5⟩] 5 = 2/15 := by
      simp [date_mean, List.filter]
      norm_num
    rw [hm]

/-- C8 (witness): the mean clause instantiated at the single row of the
three-article aggregate. -/
theorem C8_witness :
    ((5 : ℕ), (2 : ℚ)/15).2 =
      date_mean [⟨5, 1/5⟩, ⟨5, -2/5⟩, ⟨5, 3/5⟩] ((5 : ℕ), (2 : ℚ)/15).1 :=
  C8_daily_mean.2.2.2.1 [⟨5, 1/5⟩, ⟨5, -2/5⟩, ⟨5, 3/5⟩] (5, 2/15)
    (by rw [C8_daily_mean.2.2.2.2]; exact List.mem_singleton.2 rfl)

/-- Outcome of the news request check. -/
inductive RunFlow where
  | halted : RunFlow
  | proceeded : RunFlow
deriving DecidableEq

/-- Embedding of the response check (source lines 36–39): a status code
other than 200 prints the failure message and exits the run (no retry,
no backoff); otherwise the pipeline continues. -/
def news_request_gate (status_code : ℕ) : RunFlow :=
  if status_code ≠ 200 then RunFlow.halted else RunFlow.proceeded

/-- C9: a non-200 response halts the run immediately, and the pipeline
continues exactly when the status code is 200. -/
theorem C9_non_success_halts :
    (∀ sc, sc ≠ 200 → news_request_gate sc = RunFlow.halted)
  ∧ (∀ sc, news_request_gate sc = RunFlow.proceeded ↔ sc = 200) := by
  constructor
  · intro sc h
    simp [news_request_gate, h]
  · intro sc
    by_cases h : sc = 200 <;> simp [news_request_gate, h]

/-- C9 (witness): a 404 response halts the run. -/
theorem C9_witness : news_request_gate 404 = RunFlow.halted :=
  C9_non_success_halts.1 404 (by decide)

/-- A bucket of the hourly resample `merged_data.resample('H').mean()`
(source line 141) BEFORE the forward-fill of the same line: every
numeric column may be missing (`none` models NaN).  `ma7` is the
`7_day_MA` column: `rolling(7)` leaves its first six merge-order rows
NaN, the daily forward-fill of line 99 cannot fill leading NaNs, and the
NaN-tolerant standardization of line 103 keeps them NaN, so hourly
buckets built only from such rows are NaN here (every bucket, when the
merged frame has fewer than 7 rows).  The raw `sentiment` column also
survives the resample but is never NaN and never consulted, and is
omitted. -/
structure HourlyRow where
  time : ℕ
  adjusted_sentiment : Option ℚ
  ma7 : Option ℚ
  close : Option ℚ
deriving DecidableEq

/-- Helper for `hourly_ffill`: carries the most recent defined value of
each column (`Option.or` keeps a present value and substitutes the
carry for a missing one). -/
def hourly_ffill_aux (la lm lc : Option ℚ) : List HourlyRow → List HourlyRow
  | [] => []
  | r :: rest =>
    { time := r.time
      adjusted_sentiment := r.adjusted_sentiment.or la
      ma7 := r.ma7.or lm
      close := r.close.or lc } ::
      hourly_ffill_aux (r.adjusted_sentiment.or la) (r.ma7.or lm)
        (r.close.or lc) rest

/-- Column-wise `fillna(method='ffill')` of source line 141: every
missing entry takes the most recent prior defined value of its column;
leading missing entries (no prior value) stay missing. -/
def hourly_ffill (rows : List HourlyRow) : List HourlyRow :=
  hourly_ffill_aux none none none rows

/-- Embedding of
`(merged_data_hourly['Close'].shift(-1) > merged_data_hourly['Close']).astype(int)`
(source line 142), on the forward-filled frame: a pandas comparison
involving a missing value is `False`, so a bucket whose own or
successor close is missing — in particular the final bucket, whose
successor does not exist — gets label `0`. -/
def movement_col : List HourlyRow → List ℕ
  | [] => []
  | a :: rest =>
    (match rest with
     | [] => 0
     | b :: _ =>
       match a.close, b.close with
       | some ca, some cb => if ca < cb then 1 else 0
       | _, _ => 0) :: movement_col rest

/-- Helper for `shift1O`. -/
def lagAuxO (prev : Option ℚ) : List (Option ℚ) → List (Option ℚ)
  | [] => []
  | y :: r => prev :: lagAuxO y r

/-- pandas `shift(1)` (source line 143) on a column that may itself
hold missing values: the first entry is missing, entry `t` is entry
`t - 1` of the column. -/
def shift1O : List (Option ℚ) → List (Option ℚ)
  | [] => []
  | x :: r => none :: lagAuxO x r

/-- A row of the hourly classification dataset after the `Movement`
label, the recomputed `lagged_sentiment`, and `dropna` (source lines
142–144): all surviving fields are defined. -/
structure HourlyOut where
  time : ℕ
  adjusted_sentiment : ℚ
  ma7 : ℚ
  close : ℚ
  movement : ℕ
  lagged_sentiment : ℚ
deriving DecidableEq

/-- The `dropna` step of source line 144 applied to one row: the row
survives exactly when every column — `adjusted_sentiment`, `7_day_MA`,
`Close`, and the recomputed `lagged_sentiment` — is defined
(`Movement` is an integer column and is never missing). -/
def hourly_keep (rml : HourlyRow × ℕ × Option ℚ) : Option HourlyOut :=
  match rml.1.adjusted_sentiment, rml.1.ma7, rml.1.close, rml.2.2 with
  | some a, some m, some c, some lv =>
      some { time := rml.1.time, adjusted_sentiment := a, ma7 := m,
             close := c, movement := rml.2.1, lagged_sentiment := lv }
  | _, _, _, _ => none

/-- Embedding of source lines 141–144: forward-fill the resampled
frame, attach `Movement`, recompute
`lagged_sentiment = adjusted_sentiment.shift(1)`, then `dropna` over
all columns. -/
def merged_data_hourly (rows : List HourlyRow) : List HourlyOut :=
  let f := hourly_ffill rows
  (f.zip ((movement_col f).zip
      (shift1O (f.map HourlyRow.adjusted_sentiment)))).filterMap hourly_keep

lemma movement_col_getElem? (rows : List HourlyRow) :
    ∀ (t : ℕ) (cur nxt : HourlyRow) (ca cb : ℚ), rows[t]? = some cur →
      rows[t + 1]? = some nxt → cur.close = some ca → nxt.close = some cb →
      (movement_col rows)[t]? = some (if ca < cb then 1 else 0) := by
  induction rows with
  | nil => intro t cur nxt ca cb h; simp at h
  | cons a rest ih =>
    intro t cur nxt ca cb hc hn hca hcb
    cases t with
    | zero =>
      cases rest with
      | nil => simp at hn
      | cons b rest' =>
        simp only [List.getElem?_cons_zero, Option.some_inj] at hc
        simp only [List.getElem?_cons_succ, List.getElem?_cons_zero,
          Option.some_inj] at hn
        subst hc; subst hn
        simp [movement_col, hca, hcb]
    | succ t =>
      simp only [List.getElem?_cons_succ] at hc hn
      simp only [movement_col, List.getElem?_cons_succ]
      exact ih t cur nxt ca cb hc hn hca hcb

lemma movement_col_last (rows : List HourlyRow) :
    rows ≠ [] → (movement_col rows)[rows.length - 1]? = some 0 := by
  induction rows with
  | nil => intro h; exact absurd rfl h
  | cons a rest ih =>
    intro _
    cases rest with
    | nil => simp [movement_col]
    | cons b rest' =>
      have h := ih (by simp)
      simp only [movement_col, List.length_cons, Nat.add_sub_cancel] at h ⊢
      simpa using h

lemma movement_col_length (rows : List HourlyRow) :
    (movement_col rows).length = rows.length := by
  induction rows with
  | nil => simp [movement_col]
  | cons a rest ih => simp only [movement_col, List.length_cons, ih]

lemma hourly_ffill_aux_time (rest : List HourlyRow) :
    ∀ la lm lc, (hourly_ffill_aux la lm lc rest).map HourlyRow.time =
      rest.map HourlyRow.time := by
  induction rest with
  | nil => intro la lm lc; rfl
  | cons r rest' ih =>
    intro la lm lc
    simp only [hourly_ffill_aux, List.map, ih]

lemma kept_of_defined (F : List HourlyRow) :
    ∀ (mov : List ℕ) (pa : ℚ),
      (∀ r ∈ F, r.adjusted_sentiment.isSome = true ∧ r.ma7.isSome = true ∧
        r.close.isSome = true) →
      ((F.zip (mov.zip (lagAuxO (some pa)
          (F.map HourlyRow.adjusted_sentiment)))).filterMap
        hourly_keep).map HourlyOut.time =
        (F.map HourlyRow.time).take mov.length := by
  induction F with
  | nil => intro mov pa _; simp
  | cons r F' ih =>
    intro mov pa h
    cases mov with
    | nil => simp
    | cons m mov' =>
      obtain ⟨ha, hm, hc⟩ := h r (List.mem_cons_self _ _)
      rcases Option.isSome_iff_exists.1 ha with ⟨av, hav⟩
      rcases Option.isSome_iff_exists.1 hm with ⟨mv, hmv⟩
      rcases Option.isSome_iff_exists.1 hc with ⟨cv, hcv⟩
      simp only [List.map, lagAuxO, List.zip_cons_cons, List.filterMap_cons,
        hourly_keep, hav, hmv, hcv, List.length_cons, List.take_succ_cons]
      exact congrArg (List.cons r.time)
        (ih mov' av (fun x hx => h x (List.mem_cons_of_mem r hx)))

lemma ffill_ma7_none (rows : List HourlyRow) :
    ∀ la lc, (∀ r ∈ rows, r.ma7 = none) →
      ∀ r ∈ hourly_ffill_aux la none lc rows, r.ma7 = none := by
  induction rows with
  | nil => intro la lc _ r hr; simp [hourly_ffill_aux] at hr
  | cons x rows' ih =>
    intro la lc h r hr
    have hx : x.ma7 = none := h x (List.mem_cons_self _ _)
    simp only [hourly_ffill_aux, hx, Option.or_none] at hr
    rcases List.mem_cons.1 hr with rfl | hr'
    · rfl
    · exact ih _ _ (fun y hy => h y (List.mem_cons_of_mem x hy)) r hr'

lemma filterMap_keep_of_ma7_none (F : List HourlyRow) :
    ∀ (z : List (ℕ × Option ℚ)), (∀ r ∈ F, r.ma7 = none) →
      (F.zip z).filterMap hourly_keep = [] := by
  induction F with
  | nil => intro z _; simp
  | cons r F' ih =>
    intro z h
    cases z with
    | nil => simp
    | cons p z' =>
      have hm : r.ma7 = none := h r (List.mem_cons_self _ _)
      rcases p with ⟨m, l⟩
      rcases r with ⟨t, adj, ma7, close⟩
      simp only at hm
      subst hm
      have hrest := ih z' (fun y hy => h y (List.mem_cons_of_mem _ hy))
      cases adj <;> cases close <;> cases l <;>
        simp [List.zip_cons_cons, List.filterMap_cons, hourly_keep, hrest]

/-- C5 (counterexample): on an hourly frame with all columns defined and
consecutive closes `[12, 10]`, the final bucket (time 1) is NOT
dropped: the classification dataset consists exactly of that final
bucket, labelled `Movement = 0` (the first bucket is dropped instead,
for its undefined recomputed lag). -/
theorem C5_counterexample :
    (merged_data_hourly [⟨0, some (1/2), some 1, some 12⟩,
        ⟨1, some (1/2), some 1, some 10⟩]).map HourlyOut.time = [1] := by
  decide

/-- C5 (amended): on the forward-filled hourly frame, `Movement[t] = 1`
exactly when both closes are defined and the next bucket's close
exceeds the current one; the final bucket's comparison against its
missing successor yields `Movement = 0`; when every forward-filled
column is defined the classification dataset is exactly buckets
`1 .. n-1` — the final bucket is retained and only the first is dropped
(undefined recomputed `lagged_sentiment`); and `dropna` also removes
buckets whose forward-filled `7_day_MA` is still undefined — every
bucket, when the `7_day_MA` column is entirely undefined (merged frame
with fewer than 7 rows). -/
theorem C5_movement_label :
    (∀ rows t (cur nxt : HourlyRow) (ca cb : ℚ), rows[t]? = some cur →
        rows[t + 1]? = some nxt → cur.close = some ca →
        nxt.close = some cb →
        (movement_col rows)[t]? = some (if ca < cb then 1 else 0))
  ∧ (∀ rows : List HourlyRow, rows ≠ [] →
        (movement_col rows)[rows.length - 1]? = some 0)
  ∧ (∀ rows : List HourlyRow,
        (∀ r ∈ hourly_ffill rows, r.adjusted_sentiment.isSome = true ∧
          r.ma7.isSome = true ∧ r.close.isSome = true) →
        (merged_data_hourly rows).map HourlyOut.time =
          (rows.map HourlyRow.time).drop 1)
  ∧ (∀ rows : List HourlyRow, (∀ r ∈ rows, r.ma7 = none) →
        merged_data_hourly rows = []) := by
  refine ⟨fun rows => movement_col_getElem? rows, movement_col_last,
    fun rows h => ?_, fun rows h => ?_⟩
  · cases rows with
    | nil => simp [merged_data_hourly, hourly_ffill, hourly_ffill_aux]
    | cons a rest =>
      have hmem0 : (⟨a.time, a.adjusted_sentiment, a.ma7, a.close⟩ :
          HourlyRow) ∈ hourly_ffill (a :: rest) := by
        simp [hourly_ffill, hourly_ffill_aux, Option.or_none]
      obtain ⟨ha, hm, hc⟩ := h _ hmem0
      rcases Option.isSome_iff_exists.1 ha with ⟨av, hav⟩
      rcases Option.isSome_iff_exists.1 hm with ⟨mv, hmv⟩
      rcases Option.isSome_iff_exists.1 hc with ⟨cv, hcv⟩
      simp only at hav hmv hcv
      have htail : ∀ r ∈ hourly_ffill_aux (some av) (some mv) (some cv) rest,
          r ∈ hourly_ffill (a :: rest) := by
        intro r hr
        simp only [hourly_ffill, hourly_ffill_aux, Option.or_none, hav, hmv,
          hcv]
        exact List.mem_cons_of_mem _ hr
      have hkept := kept_of_defined
        (hourly_ffill_aux (some av) (some mv) (some cv) rest)
        (movement_col (hourly_ffill_aux (some av) (some mv) (some cv) rest))
        av (fun r hr => h r (htail r hr))
      rw [movement_col_length,
        ← List.length_map (hourly_ffill_aux (some av) (some mv) (some cv) rest)
          HourlyRow.time,
        List.take_length, hourly_ffill_aux_time] at hkept
      simp only [merged_data_hourly, hourly_ffill, hourly_ffill_aux,
        Option.or_none, hav, hmv, hcv, List.map, shift1O, movement_col,
        List.zip_cons_cons, List.filterMap_cons, hourly_keep,
        List.drop_succ_cons, List.drop_zero]
      exact hkept
  · have hff : ∀ r ∈ hourly_ffill rows, r.ma7 = none :=
      ffill_ma7_none rows none none h
    simp only [merged_data_hourly]
    exact filterMap_keep_of_ma7_none (hourly_ffill rows) _ hff

/-- C5 (witness): concrete instances — with defined closes `[10, 12]`
the first bucket's label is `1`; a two-bucket frame's final label is
`0`; an all-columns-defined two-bucket frame keeps exactly the final
bucket; and a frame whose `7_day_MA` column is entirely undefined
yields the empty classification dataset. -/
theorem C5_witness :
    (movement_col [⟨0, some (1/2), some 1, some 10⟩,
        ⟨1, some (1/2), some 1, some 12⟩])[0]? =
      some (if (10 : ℚ) < 12 then 1 else 0)
  ∧ (movement_col [⟨0, some (1/2), some 1, some 12⟩,
      ⟨1, some (1/2), some 1, some 10⟩])[(
      [⟨0, some (1/2), some 1, some 12⟩,
        (⟨1, some (1/2), some 1, some 10⟩ : HourlyRow)].length - 1)]? =
        some 0
  ∧ (merged_data_hourly [⟨0, some (1/2), some 1, some 10⟩,
        ⟨1, some (1/2), some 1, some 12⟩]).map HourlyOut.time =
      ([⟨0, some (1/2), some 1, some 10⟩,
        (⟨1, some (1/2), some 1, some 12⟩ : HourlyRow)].map
          HourlyRow.time).drop 1
  ∧ merged_data_hourly [⟨0, some (1/2), none, some 10⟩] = [] :=
  ⟨C5_movement_label.1 [⟨0, some (1/2), some 1, some 10⟩,
      ⟨1, some (1/2), some 1, some 12⟩] 0 ⟨0, some (1/2), some 1, some 10⟩
      ⟨1, some (1/2), some 1, some 12⟩ 10 12 rfl rfl rfl rfl,
   C5_movement_label.2.1 [⟨0, some (1/2), some 1, some 12⟩,
      ⟨1, some (1/2), some 1, some 10⟩] (by simp),
   C5_movement_label.2.2.1 [⟨0, some (1/2), some 1, some 10⟩,
      ⟨1, some (1/2), some 1, some 12⟩] (by decide),
   C5_movement_label.2.2.2 [⟨0, some (1/2), none, some 10⟩] (by decide)⟩

/-- Embedding of `clean_text(text)` (source lines 54–57): lower-case,
delete every character outside `\w` and `\s`, tokenize, drop stop-words,
rejoin with single spaces.  `word_tokenize` is modelled as whitespace
tokenization: on text already stripped to `\w` and `\s` characters the
NLTK tokenizer reduces to whitespace splitting, which is also how the
specification words the contract. -/
def clean_text (stop_words : List (List ℕ)) (text : List ℕ) : List ℕ :=
  let lowered := text.map pyLower
  let stripped := lowered.filter fun c => isWordChar c || isWs c
  joinSpace ((splitWs stripped).filter fun w => decide (w ∉ stop_words))

/-- The character class the claim asserts for Text Normalizer output:
lower-case letters, digits, and the space separator. -/
def claim_char (c : ℕ) : Bool :=
  (97 ≤ c && c ≤ 122) || (48 ≤ c && c ≤ 57) || c = 32

/-- Adjacent-pair check used to state "separated by single spaces": no
two consecutive space characters. -/
def noDoubleSpace : List ℕ → Bool
  | c :: d :: rest => !(c = 32 && d = 32) && noDoubleSpace (d :: rest)
  | _ => true

/-- C6 (counterexample): the regex class `\w` keeps underscores, so
`clean_text` on the input `"a_b"` returns `"a_b"` unchanged — an output
character (the underscore, code point 95) that is neither a lowercase
alphanumeric nor a space. -/
theorem C6_counterexample :
    ¬ ((clean_text [] [97, 95, 98]).all claim_char = true) := by
  decide

lemma splitWs_sound (l : List ℕ) :
    ∀ w ∈ splitWs l, w ≠ [] ∧ ∀ c ∈ w, c ∈ l ∧ isWs c = false := by
  induction l with
  | nil => intro w hw; simp [splitWs] at hw
  | cons c rest ih =>
    intro w hw
    cases rest with
    | nil =>
      by_cases hc : isWs c = true
      · simp [splitWs, hc] at hw
      · simp only [splitWs] at hw
        rw [if_neg hc] at hw
        simp only [List.mem_singleton] at hw
        subst hw
        refine ⟨by simp, fun d hd => ?_⟩
        simp only [List.mem_singleton] at hd
        subst hd
        exact ⟨List.mem_cons_self _ _, by simpa using hc⟩
    | cons e rest₂ =>
      by_cases hc : isWs c = true
      · simp only [splitWs] at hw
        rw [if_pos hc] at hw
        rcases ih w hw with ⟨hne, hmem⟩
        exact ⟨hne, fun d hd => ⟨List.mem_cons_of_mem c (hmem d hd).1,
          (hmem d hd).2⟩⟩
      · by_cases he : isWs e = true
        · simp only [splitWs] at hw
          rw [if_neg hc, if_pos he] at hw
          rcases List.mem_cons.1 hw with hw1 | hw2
          · subst hw1
            refine ⟨by simp, fun d hd => ?_⟩
            simp only [List.mem_singleton] at hd
            subst hd
            exact ⟨List.mem_cons_self _ _, by simpa using hc⟩
          · rcases ih w hw2 with ⟨hne, hmem⟩
            exact ⟨hne, fun d hd => ⟨List.mem_cons_of_mem c (hmem d hd).1,
              (hmem d hd).2⟩⟩
        · simp only [splitWs] at hw
          rw [if_neg hc, if_neg he] at hw
          cases hsp : splitWs (e :: rest₂) with
          | nil =>
            rw [hsp] at hw
            change w ∈ [[c]] at hw
            simp only [List.mem_singleton] at hw
            subst hw
            refine ⟨by simp, fun d hd => ?_⟩
            simp only [List.mem_singleton] at hd
            subst hd
            exact ⟨List.mem_cons_self _ _, by simpa using hc⟩
          | cons t ts =>
            rw [hsp] at hw
            change w ∈ (c :: t) :: ts at hw
            rcases List.mem_cons.1 hw with hw1 | hw2
            · subst hw1
              refine ⟨by simp, fun d hd => ?_⟩
              rcases List.mem_cons.1 hd with hd1 | hd2
              · subst hd1
                exact ⟨List.mem_cons_self _ _, by simpa using hc⟩
              · have ht : t ∈ splitWs (e :: rest₂) := by
                  rw [hsp]; exact List.mem_cons_self _ _
                rcases ih t ht with ⟨_, hmem⟩
                exact ⟨List.mem_cons_of_mem c (hmem d hd2).1, (hmem d hd2).2⟩
            · have hts : w ∈ splitWs (e :: rest₂) := by
                rw [hsp]; exact List.mem_cons_of_mem t hw2
              rcases ih w hts with ⟨hne, hmem⟩
              exact ⟨hne, fun d hd => ⟨List.mem_cons_of_mem c (hmem d hd).1,
                (hmem d hd).2⟩⟩

lemma splitWs_cons_of_ws (d : ℕ) (l : List ℕ) (hd : isWs d = true) :
    splitWs (d :: l) = splitWs l := by
  cases l with
  | nil => simp [splitWs, hd]
  | cons x xs =>
    simp only [splitWs]
    rw [if_pos hd]

lemma splitWs_token_append (w : List ℕ) :
    ∀ l : List ℕ, w ≠ [] → (∀ c ∈ w, isWs c = false) →
      (l = [] ∨ ∃ d l2, l = d :: l2 ∧ isWs d = true) →
      splitWs (w ++ l) = w :: splitWs l := by
  induction w with
  | nil => intro l hne _ _; exact absurd rfl hne
  | cons c w' ih =>
    intro l _ hw hl
    have hc : isWs c = false := hw c (List.mem_cons_self _ _)
    cases w' with
    | nil =>
      rcases hl with rfl | ⟨d, l2, rfl, hd⟩
      · simp [splitWs, hc]
      · simp only [List.cons_append, List.nil_append, splitWs]
        rw [if_neg (by simp [hc]), if_pos hd]
    | cons e w₂ =>
      have he : isWs e = false := hw e (by simp)
      have hrec := ih l (by simp)
        (fun x hx => hw x (List.mem_cons_of_mem c hx)) hl
      simp only [List.cons_append] at hrec ⊢
      simp only [splitWs]
      rw [if_neg (by simp [hc]), if_neg (by simp [he]), hrec]

lemma splitWs_joinSpace (toks : List (List ℕ))
    (h : ∀ w ∈ toks, w ≠ [] ∧ ∀ c ∈ w, isWs c = false) :
    splitWs (joinSpace toks) = toks := by
  induction toks with
  | nil => rfl
  | cons w ws ih =>
    cases ws with
    | nil =>
      have hw := h w (List.mem_cons_self _ _)
      have happ := splitWs_token_append w [] hw.1 hw.2 (Or.inl rfl)
      simpa [joinSpace] using happ
    | cons w₂ ws' =>
      have hw := h w (List.mem_cons_self _ _)
      have hih := ih (fun x hx => h x (List.mem_cons_of_mem w hx))
      rw [show joinSpace (w :: w₂ :: ws') = w ++ 32 :: joinSpace (w₂ :: ws')
          from rfl,
        splitWs_token_append w (32 :: joinSpace (w₂ :: ws')) hw.1 hw.2
          (Or.inr ⟨32, joinSpace (w₂ :: ws'), rfl, rfl⟩),
        splitWs_cons_of_ws 32 _ rfl, hih]

lemma mem_joinSpace (toks : List (List ℕ)) (c : ℕ) :
    c ∈ joinSpace toks → c = 32 ∨ ∃ w ∈ toks, c ∈ w := by
  induction toks with
  | nil => intro h; simp [joinSpace] at h
  | cons w ws ih =>
    cases ws with
    | nil =>
      intro h
      exact Or.inr ⟨w, by simp, by simpa [joinSpace] using h⟩
    | cons w₂ ws' =>
      intro h
      rw [show joinSpace (w :: w₂ :: ws') = w ++ 32 :: joinSpace (w₂ :: ws')
          from rfl] at h
      rcases List.mem_append.1 h with h1 | h2
      · exact Or.inr ⟨w, by simp, h1⟩
      · rcases List.mem_cons.1 h2 with rfl | h3
        · exact Or.inl rfl
        · rcases ih h3 with h4 | ⟨x, hx, hcx⟩
          · exact Or.inl h4
          · exact Or.inr ⟨x, List.mem_cons_of_mem w hx, hcx⟩

lemma noDoubleSpace_cons_of_ne (c : ℕ) (l : List ℕ) (hc : c ≠ 32) :
    noDoubleSpace (c :: l) = noDoubleSpace l := by
  cases l with
  | nil => simp [noDoubleSpace]
  | cons d rest => simp [noDoubleSpace, hc]

lemma noDoubleSpace_append (w r : List ℕ) (hw : ∀ c ∈ w, c ≠ 32) :
    noDoubleSpace (w ++ r) = noDoubleSpace r := by
  induction w with
  | nil => rfl
  | cons c w' ih =>
    rw [List.cons_append, noDoubleSpace_cons_of_ne c _ (hw c (by simp)),
      ih (fun x hx => hw x (List.mem_cons_of_mem c hx))]

lemma joinSpace_ne_nil (toks : List (List ℕ)) (hne : toks ≠ [])
    (h : ∀ w ∈ toks, w ≠ []) : joinSpace toks ≠ [] := by
  cases toks with
  | nil => exact absurd rfl hne
  | cons w ws =>
    cases ws with
    | nil => simpa [joinSpace] using h w (by simp)
    | cons w₂ ws' => simp [joinSpace]

lemma joinSpace_single_spaced (toks : List (List ℕ))
    (h : ∀ w ∈ toks, w ≠ [] ∧ ∀ c ∈ w, isWs c = false) :
    (joinSpace toks).head? ≠ some 32 ∧
      (joinSpace toks).getLast? ≠ some 32 ∧
      noDoubleSpace (joinSpace toks) = true := by
  induction toks with
  | nil => exact ⟨by simp [joinSpace], by simp [joinSpace], rfl⟩
  | cons w ws ih =>
    have hw := h w (List.mem_cons_self _ _)
    have hw32 : ∀ c ∈ w, c ≠ 32 := by
      intro c hc h32
      have hws := hw.2 c hc
      subst h32
      simp [isWs] at hws
    cases ws with
    | nil =>
      refine ⟨?_, ?_, ?_⟩
      · cases w with
        | nil => simp [joinSpace]
        | cons c w' =>
          have := hw32 c (by simp)
          simp [joinSpace, this]
      · intro hcontra
        have h32 : (32 : ℕ) ∈ w := by
          apply List.mem_of_getLast?_eq_some
          simpa [joinSpace] using hcontra
        exact hw32 32 h32 rfl
      · have happ := noDoubleSpace_append w [] hw32
        simpa using happ
    | cons w₂ ws' =>
      have hih := ih (fun x hx => h x (List.mem_cons_of_mem w hx))
      have hjne : joinSpace (w₂ :: ws') ≠ [] :=
        joinSpace_ne_nil _ (by simp)
          (fun x hx => (h x (List.mem_cons_of_mem w hx)).1)
      have hjoin : joinSpace (w :: w₂ :: ws') =
          w ++ 32 :: joinSpace (w₂ :: ws') := rfl
      refine ⟨?_, ?_, ?_⟩
      · rw [hjoin]
        cases w with
        | nil => exact absurd rfl hw.1
        | cons c w' =>
          have := hw32 c (by simp)
          simp [this]
      · rw [hjoin, List.getLast?_append]
        have h32J : (32 :: joinSpace (w₂ :: ws')).getLast? =
            (joinSpace (w₂ :: ws')).getLast? := by
          cases hJ : joinSpace (w₂ :: ws') with
          | nil => exact absurd hJ hjne
          | cons a as => rw [List.getLast?_cons_cons]
        rw [h32J]
        cases hJl : (joinSpace (w₂ :: ws')).getLast? with
        | none => exact absurd (List.getLast?_eq_none_iff.1 hJl) hjne
        | some a =>
          have ha : a ≠ 32 := by
            have := hih.2.1
            rw [hJl] at this
            simpa using this
          simpa [Option.or] using ha
      · rw [hjoin, noDoubleSpace_append w _ hw32]
        cases hJ : joinSpace (w₂ :: ws') with
        | nil => rfl
        | cons a as =>
          have ha : a ≠ 32 := by
            have := hih.1
            rw [hJ] at this
            simpa using this
          have hnd := hih.2.2
          rw [hJ] at hnd
          simp [noDoubleSpace, ha, hnd]

lemma pyLower_not_upper (c : ℕ) : ¬ (65 ≤ pyLower c ∧ pyLower c ≤ 90) := by
  unfold pyLower
  split_ifs <;> omega

lemma clean_text_tokens_ok (stop_words : List (List ℕ)) (text : List ℕ) :
    ∀ w ∈ (splitWs ((text.map pyLower).filter
        (fun c => isWordChar c || isWs c))).filter
          (fun w => decide (w ∉ stop_words)),
      w ≠ [] ∧ ∀ c ∈ w, isWs c = false := by
  intro w hw
  have hmem := (List.mem_filter.1 hw).1
  rcases splitWs_sound _ w hmem with ⟨hne, hchar⟩
  exact ⟨hne, fun c hc => (hchar c hc).2⟩

/-- C6 (amended): for every stop-word set and every input, the Text
Normalizer's output contains only lower-case letters, digits,
UNDERSCORES, and spaces (the regex class `\w` keeps the underscore);
the output neither starts nor ends with a space and has no two adjacent
spaces (tokens are separated by single spaces); no output token belongs
to the stop-word set; and the empty input yields the empty output. -/
theorem C6_normalizer_output :
    (∀ stop_words text c, c ∈ clean_text stop_words text →
        (97 ≤ c ∧ c ≤ 122) ∨ (48 ≤ c ∧ c ≤ 57) ∨ c = 95 ∨ c = 32)
  ∧ (∀ stop_words text,
        (clean_text stop_words text).head? ≠ some 32 ∧
        (clean_text stop_words text).getLast? ≠ some 32 ∧
        noDoubleSpace (clean_text stop_words text) = true)
  ∧ (∀ stop_words text w, w ∈ splitWs (clean_text stop_words text) →
        w ∉ stop_words)
  ∧ (∀ stop_words, clean_text stop_words [] = []) := by
  refine ⟨fun stop_words text c hc => ?_,
    fun stop_words text => ?_, fun stop_words text w hw => ?_,
    fun stop_words => rfl⟩
  · rcases mem_joinSpace _ c hc with h32 | ⟨w, hwtok, hcw⟩
    · omega
    · have hmem := (List.mem_filter.1 hwtok).1
      rcases splitWs_sound _ w hmem with ⟨_, hchar⟩
      have hcs := hchar c hcw
      have hstr := hcs.1
      have hws := hcs.2
      have hfil := (List.mem_filter.1 hstr).2
      have hlow := (List.mem_filter.1 hstr).1
      rcases List.mem_map.1 hlow with ⟨c₀, _, rfl⟩
      have hup := pyLower_not_upper c₀
      simp [isWordChar, isWs] at hfil hws
      omega
  · exact joinSpace_single_spaced _ (clean_text_tokens_ok stop_words text)
  · rw [show clean_text stop_words text =
        joinSpace ((splitWs ((text.map pyLower).filter
          (fun c => isWordChar c || isWs c))).filter
            (fun w => decide (w ∉ stop_words))) from rfl,
      splitWs_joinSpace _ (clean_text_tokens_ok stop_words text)] at hw
    exact of_decide_eq_true (List.mem_filter.1 hw).2

/-- C6 (witness): the input `"A"` normalizes to `"a"`, whose character
97 is a lower-case letter; and with stop set `{"b"}` the token `"a"` of
the output is not a stop word. -/
theorem C6_witness :
    ((97 ≤ (97 : ℕ) ∧ (97 : ℕ) ≤ 122) ∨ (48 ≤ (97 : ℕ) ∧ (97 : ℕ) ≤ 57) ∨
      (97 : ℕ) = 95 ∨ (97 : ℕ) = 32)
  ∧ ([(97 : ℕ)] ∉ [[(98 : ℕ)]]) :=
  ⟨C6_normalizer_output.1 [] [65] 97 (by decide),
   C6_normalizer_output.2.2.1 [[98]] [97] [97] (by decide)⟩
